import Mathlib

/-!
Shallow embedding of the K-V cache memory manager:
`src/block_manager.py` (class `BlockManager`) and `src/sequence.py`
(class `Sequence`).

Every mutating Python method is embedded as a function returning the
post-call state together with an optional error, mirroring the order in
which the Python method mutates its objects before raising: on an error
path the returned state is exactly the state the Python objects hold when
the exception propagates.  Physical block identifiers handed out by the
pool are natural numbers; identifiers and token indices supplied by a
caller are integers, since Python callers may pass negative values and
the code checks `< 0` explicitly.  Python's `//` and `%` raise
`ZeroDivisionError` for a zero divisor, embedded as the `zeroDivision`
error before any division is performed.
-/

/-- Errors raised by the block pool (`RuntimeError` / `ValueError`
in `src/block_manager.py`, named as in the spec's taxonomy). -/
inductive PoolError where
  | outOfBlocks : PoolError
  | invalidBlockId : Int → PoolError
  | doubleFree : Int → PoolError
  deriving DecidableEq, Repr

/-- Errors raised by `Sequence` methods in `src/sequence.py`.
`allocFailed` is the wrapped OOM error carrying the sequence id and the
token position; the other two are the translation-time errors. -/
inductive SeqError where
  | allocFailed : String → Nat → PoolError → SeqError
  | tokenIndexOutOfRange : Int → SeqError
  | unmappedLogicalBlock : Nat → SeqError
  | zeroDivision : SeqError
  deriving DecidableEq, Repr

/-- State of `BlockManager` (src/block_manager.py).  The tensor caches
hold no allocation-relevant state; their shape parameters are kept as
opaque data, as the spec prescribes. -/
structure BlockManager where
  num_blocks : Nat
  block_size : Nat
  num_layers : Nat
  num_heads : Nat
  head_size : Nat
  free_blocks : List Nat
  deriving DecidableEq, Repr

/-- `BlockManager.__init__`: all blocks start free,
`self.free_blocks = list(range(num_blocks))`. -/
def BlockManager.init (num_blocks block_size num_layers num_heads head_size : Nat) :
    BlockManager :=
  { num_blocks := num_blocks
    block_size := block_size
    num_layers := num_layers
    num_heads := num_heads
    head_size := head_size
    free_blocks := List.range num_blocks }

/-- `BlockManager.allocate_block`: raise when the free list is empty,
otherwise `self.free_blocks.pop()` removes and returns the last element. -/
def BlockManager.allocate_block (m : BlockManager) :
    BlockManager × Except PoolError Nat :=
  match m.free_blocks.getLast? with
  | none => (m, Except.error PoolError.outOfBlocks)
  | some b => ({ m with free_blocks := m.free_blocks.dropLast }, Except.ok b)

/-- `BlockManager.free_block`: range check, then double-free check, then
`self.free_blocks.append(block_index)`. -/
def BlockManager.free_block (m : BlockManager) (block_index : Int) :
    BlockManager × Option PoolError :=
  if block_index < 0 ∨ (m.num_blocks : Int) ≤ block_index then
    (m, some (PoolError.invalidBlockId block_index))
  else if block_index.toNat ∈ m.free_blocks then
    (m, some (PoolError.doubleFree block_index))
  else
    ({ m with free_blocks := m.free_blocks ++ [block_index.toNat] }, none)

/-- `BlockManager.get_num_free_blocks`: `len(self.free_blocks)`. -/
def BlockManager.get_num_free_blocks (m : BlockManager) : Nat :=
  m.free_blocks.length

/-- State of `Sequence` (src/sequence.py).  `block_table` is a Python
dict from logical block index to physical block id; dicts preserve
insertion order and new keys are appended at the end, so it is embedded
as an association list extended at the tail. -/
structure Sequence where
  request_id : String
  token_count : Nat
  block_table : List (Nat × Nat)
  deriving DecidableEq, Repr

/-- `Sequence.__init__`. -/
def Sequence.init (request_id : String) : Sequence :=
  { request_id := request_id, token_count := 0, block_table := [] }

/-- `Sequence.append_token`: compute the logical block of the incoming
token; if it has no physical block yet, allocate one (re-raising an
allocation failure wrapped with the sequence id and token position,
before any mutation); finally `self.token_count += 1`. -/
def Sequence.append_token (s : Sequence) (m : BlockManager) :
    (Sequence × BlockManager) × Option SeqError :=
  if m.block_size = 0 then ((s, m), some SeqError.zeroDivision)
  else
    let logical := s.token_count / m.block_size
    if (s.block_table.lookup logical).isSome then
      (({ s with token_count := s.token_count + 1 }, m), none)
    else
      match m.allocate_block with
      | (m1, Except.error e) =>
          ((s, m1), some (SeqError.allocFailed s.request_id s.token_count e))
      | (m1, Except.ok b) =>
          (({ s with
                token_count := s.token_count + 1
                block_table := s.block_table ++ [(logical, b)] }, m1), none)

/-- `Sequence.append_tokens`: `for _ in range(num_tokens): self.append_token(manager)`;
the first exception aborts the loop with the state reached so far. -/
def Sequence.append_tokens (s : Sequence) (m : BlockManager) (num_tokens : Nat) :
    (Sequence × BlockManager) × Option SeqError :=
  match num_tokens with
  | 0 => ((s, m), none)
  | Nat.succ k =>
    match s.append_token m with
    | (p, some e) => (p, some e)
    | ((s1, m1), none) => s1.append_tokens m1 k

/-- `Sequence.get_physical_block`: bounds check on the token index, then
pure div/mod address arithmetic, then a defensive mapping lookup.
Read-only. -/
def Sequence.get_physical_block (s : Sequence) (token_index : Int) (m : BlockManager) :
    Except SeqError (Nat × Nat) :=
  if token_index < 0 ∨ (s.token_count : Int) ≤ token_index then
    Except.error (SeqError.tokenIndexOutOfRange token_index)
  else if m.block_size = 0 then
    Except.error SeqError.zeroDivision
  else
    let logical := token_index.toNat / m.block_size
    let offset := token_index.toNat % m.block_size
    match s.block_table.lookup logical with
    | none => Except.error (SeqError.unmappedLogicalBlock logical)
    | some p => Except.ok (p, offset)

/-- `Sequence.get_num_blocks`: `len(self.block_table)`. -/
def Sequence.get_num_blocks (s : Sequence) : Nat :=
  s.block_table.length

/-- The loop body of `Sequence.free_all_blocks`:
`for physical_block_idx in self.block_table.values(): manager.free_block(...)`.
A failing release aborts the loop, keeping the manager state reached so far. -/
def freeLoop : List Nat → BlockManager → BlockManager × Option PoolError
  | [], m => (m, none)
  | b :: rest, m =>
    match m.free_block (b : Int) with
    | (m1, some e) => (m1, some e)
    | (m1, none) => freeLoop rest m1

/-- `Sequence.free_all_blocks`: release every mapped physical block in
insertion order; only when the whole loop completes are
`self.block_table.clear()` and `self.token_count = 0` executed. -/
def Sequence.free_all_blocks (s : Sequence) (m : BlockManager) :
    (Sequence × BlockManager) × Option PoolError :=
  match freeLoop (s.block_table.map Prod.snd) m with
  | (m1, none) => (({ s with block_table := [], token_count := 0 }, m1), none)
  | (m1, some e) => ((s, m1), some e)

/-- Repeated allocation: call `allocate_block` `n` times, collecting the
returned identifiers in order, stopping at the first failure. -/
def allocRep : BlockManager → Nat → List Nat × BlockManager × Option PoolError
  | m, 0 => ([], m, none)
  | m, Nat.succ k =>
    match m.allocate_block with
    | (m1, Except.error e) => ([], m1, some e)
    | (m1, Except.ok b) =>
      let r := allocRep m1 k
      (b :: r.1, r.2.1, r.2.2)

-- Sanity checks of the embedding on the spec's Scenario A numbers.
example :
    (((Sequence.init "r").append_tokens (BlockManager.init 100 16 1 1 1) 30).1.1).get_num_blocks
      = 2 := by decide
example :
    (((Sequence.init "r").append_tokens (BlockManager.init 100 16 1 1 1) 30).1.1).get_physical_block
      29 (((Sequence.init "r").append_tokens (BlockManager.init 100 16 1 1 1) 30).1.2)
      = Except.ok (98, 13) := by rfl

/-! ### General list helpers -/

lemma count_range_eq (n a : Nat) :
    (List.range n).count a = if a < n then 1 else 0 := by
  by_cases h : a < n
  · rw [if_pos h]
    exact List.count_eq_one_of_mem (List.nodup_range n) (List.mem_range.mpr h)
  · rw [if_neg h]
    exact List.count_eq_zero_of_not_mem (by simpa using h)

lemma lookup_append_new (l : List (Nat × Nat)) (k v : Nat) (h : l.lookup k = none) :
    (l ++ [(k, v)]).lookup k = some v := by
  rw [List.lookup_append, h]
  simp [List.lookup]

lemma lookup_append_mono (l : List (Nat × Nat)) (k v j p : Nat)
    (h : l.lookup j = some p) : (l ++ [(k, v)]).lookup j = some p := by
  rw [List.lookup_append, h]
  rfl

lemma lookup_isSome_mem_keys (l : List (Nat × Nat)) (k : Nat) :
    (l.lookup k).isSome ↔ k ∈ l.map Prod.fst := by
  rw [List.lookup_isSome_iff]
  constructor
  · rintro ⟨p, hp, hk⟩
    rw [List.mem_map]
    exact ⟨p, hp, (beq_iff_eq.mp hk).symm⟩
  · intro h
    obtain ⟨p, hp, hfst⟩ := List.mem_map.mp h
    exact ⟨p, hp, by simp [hfst]⟩

/-! ### Claim C6 -/

/-- C6: `free_block` fails with `InvalidBlockId` outside `[0, total_blocks)`
and with `DoubleFree` on an id already free, leaving the pool unchanged in
both cases; it never silently succeeds on an unallocated id, and on a
currently-allocated id it appends the id back to the free set. -/
theorem free_block_spec (m : BlockManager) (i : Int) :
    (i < 0 ∨ (m.num_blocks : Int) ≤ i →
        m.free_block i = (m, some (PoolError.invalidBlockId i))) ∧
    (¬(i < 0 ∨ (m.num_blocks : Int) ≤ i) → i.toNat ∈ m.free_blocks →
        m.free_block i = (m, some (PoolError.doubleFree i))) ∧
    (¬(i < 0 ∨ (m.num_blocks : Int) ≤ i) → i.toNat ∉ m.free_blocks →
        m.free_block i =
          ({ m with free_blocks := m.free_blocks ++ [i.toNat] }, none)) ∧
    (∀ m1, m.free_block i = (m1, none) →
        0 ≤ i ∧ i < (m.num_blocks : Int) ∧ i.toNat ∉ m.free_blocks) := by
  refine ⟨fun h1 => ?_, fun h1 h2 => ?_, fun h1 h2 => ?_, fun m1 h => ?_⟩
  · simp [BlockManager.free_block, h1]
  · simp [BlockManager.free_block, h1, h2]
  · simp [BlockManager.free_block, h1, h2]
  · by_cases h1 : i < 0 ∨ (m.num_blocks : Int) ≤ i
    · simp [BlockManager.free_block, h1] at h
    · by_cases h2 : i.toNat ∈ m.free_blocks
      · simp [BlockManager.free_block, h1, h2] at h
      · exact ⟨by omega, by omega, h2⟩

/-- Witness for C6 at a concrete pool: both failure modes observed. -/
theorem free_block_spec_witness :
    (BlockManager.init 2 4 1 1 1).free_block (-1)
        = (BlockManager.init 2 4 1 1 1, some (PoolError.invalidBlockId (-1))) ∧
    (BlockManager.init 2 4 1 1 1).free_block 1
        = (BlockManager.init 2 4 1 1 1, some (PoolError.doubleFree 1)) :=
  ⟨(free_block_spec (BlockManager.init 2 4 1 1 1) (-1)).1 (by decide),
   (free_block_spec (BlockManager.init 2 4 1 1 1) 1).2.1 (by decide) (by decide)⟩

/-! ### Claim C5 -/

lemma allocRep_drain (m : BlockManager) (l : List Nat) :
    allocRep { m with free_blocks := l } l.length =
      (l.reverse, { m with free_blocks := [] }, none) := by
  induction l using List.reverseRecOn with
  | nil => simp [allocRep]
  | append_singleton l' b ih =>
    have hlen : (l' ++ [b]).length = l'.length + 1 := by simp
    rw [hlen]
    simp only [allocRep, BlockManager.allocate_block, List.getLast?_concat,
      List.dropLast_concat, ih]
    simp

/-- C5: a freshly constructed pool has `free_count() == total_blocks`;
allocating `total_blocks` times succeeds, returning every identifier in
`[0, total_blocks)` exactly once; afterwards `free_count()` is `0` and one
further `allocate` fails with `OutOfBlocks`, leaving the pool unchanged. -/
theorem pool_construction_exhaustion (n bs nl nh hs : Nat) :
    (BlockManager.init n bs nl nh hs).get_num_free_blocks = n ∧
    (allocRep (BlockManager.init n bs nl nh hs) n).2.2 = none ∧
    (∀ b, (allocRep (BlockManager.init n bs nl nh hs) n).1.count b
        = if b < n then 1 else 0) ∧
    (allocRep (BlockManager.init n bs nl nh hs) n).2.1.get_num_free_blocks = 0 ∧
    (allocRep (BlockManager.init n bs nl nh hs) n).2.1.allocate_block
      = ((allocRep (BlockManager.init n bs nl nh hs) n).2.1,
          Except.error PoolError.outOfBlocks) := by
  have hinit : BlockManager.init n bs nl nh hs
      = { BlockManager.init n bs nl nh hs with free_blocks := List.range n } := rfl
  have hdrain := allocRep_drain (BlockManager.init n bs nl nh hs) (List.range n)
  rw [List.length_range] at hdrain
  rw [hinit]
  refine ⟨by simp [BlockManager.get_num_free_blocks, BlockManager.init], ?_, ?_, ?_, ?_⟩
  · rw [hdrain]
  · intro b
    rw [hdrain]
    simpa [List.count_reverse] using count_range_eq n b
  · rw [hdrain]
    simp [BlockManager.get_num_free_blocks]
  · rw [hdrain]
    simp [BlockManager.allocate_block]

/-! ### Characterization of the four execution paths of append_token -/

lemma append_token_of_zero (s : Sequence) (m : BlockManager) (h0 : m.block_size = 0) :
    s.append_token m = ((s, m), some SeqError.zeroDivision) := by
  simp [Sequence.append_token, h0]

lemma append_token_of_hit (s : Sequence) (m : BlockManager) (h0 : m.block_size ≠ 0)
    (hl : (s.block_table.lookup (s.token_count / m.block_size)).isSome = true) :
    s.append_token m = (({ s with token_count := s.token_count + 1 }, m), none) := by
  simp [Sequence.append_token, h0, hl]

lemma append_token_of_miss_alloc (s : Sequence) (m : BlockManager) (b : Nat)
    (h0 : m.block_size ≠ 0)
    (hl : s.block_table.lookup (s.token_count / m.block_size) = none)
    (hb : m.free_blocks.getLast? = some b) :
    s.append_token m =
      (({ s with
            token_count := s.token_count + 1
            block_table := s.block_table ++ [(s.token_count / m.block_size, b)] },
        { m with free_blocks := m.free_blocks.dropLast }), none) := by
  simp [Sequence.append_token, h0, hl, BlockManager.allocate_block, hb]

lemma append_token_of_miss_empty (s : Sequence) (m : BlockManager) (h0 : m.block_size ≠ 0)
    (hl : s.block_table.lookup (s.token_count / m.block_size) = none)
    (hb : m.free_blocks.getLast? = none) :
    s.append_token m =
      ((s, m), some (SeqError.allocFailed s.request_id s.token_count
        PoolError.outOfBlocks)) := by
  simp [Sequence.append_token, h0, hl, BlockManager.allocate_block, hb]

/-- Inversion: everything a successful `append_token` can have done. -/
lemma append_token_ok_cases (s : Sequence) (m : BlockManager) (s1 : Sequence)
    (m1 : BlockManager) (h : s.append_token m = ((s1, m1), none)) :
    m.block_size ≠ 0 ∧ s1.request_id = s.request_id ∧
    s1.token_count = s.token_count + 1 ∧
    ((s1.block_table = s.block_table ∧ m1 = m ∧
        (s.block_table.lookup (s.token_count / m.block_size)).isSome = true) ∨
      (∃ b, m.free_blocks.getLast? = some b ∧
        s.block_table.lookup (s.token_count / m.block_size) = none ∧
        s1.block_table = s.block_table ++ [(s.token_count / m.block_size, b)] ∧
        m1 = { m with free_blocks := m.free_blocks.dropLast })) := by
  by_cases h0 : m.block_size = 0
  · rw [append_token_of_zero s m h0] at h
    simp at h
  · cases hlo : s.block_table.lookup (s.token_count / m.block_size) with
    | some v =>
      rw [append_token_of_hit s m h0 (by simp [hlo])] at h
      have hs1 : s1 = { s with token_count := s.token_count + 1 } := by
        have := congrArg (fun p => p.1.1) h
        simpa using this.symm
      have hm1 : m1 = m := by
        have := congrArg (fun p => p.1.2) h
        simpa using this.symm
      subst hs1; subst hm1
      exact ⟨h0, rfl, rfl, Or.inl ⟨rfl, rfl, by simp [hlo]⟩⟩
    | none =>
      cases hb : m.free_blocks.getLast? with
      | none =>
        rw [append_token_of_miss_empty s m h0 hlo hb] at h
        simp at h
      | some b =>
        rw [append_token_of_miss_alloc s m b h0 hlo hb] at h
        have hs1 : s1 = { s with
            token_count := s.token_count + 1
            block_table := s.block_table ++ [(s.token_count / m.block_size, b)] } := by
          have := congrArg (fun p => p.1.1) h
          simpa using this.symm
        have hm1 : m1 = { m with free_blocks := m.free_blocks.dropLast } := by
          have := congrArg (fun p => p.1.2) h
          simpa using this.symm
        subst hs1; subst hm1
        exact ⟨h0, rfl, rfl, Or.inr ⟨b, rfl, rfl, rfl, rfl⟩⟩

/-- Inversion: a failing `append_token` leaves sequence and pool unchanged. -/
lemma append_token_err_state (s : Sequence) (m : BlockManager)
    (p : Sequence × BlockManager) (e : SeqError) (h : s.append_token m = (p, some e)) :
    p = (s, m) := by
  by_cases h0 : m.block_size = 0
  · rw [append_token_of_zero s m h0] at h
    exact (congrArg (fun q => q.1) h).symm
  · cases hlo : s.block_table.lookup (s.token_count / m.block_size) with
    | some v =>
      rw [append_token_of_hit s m h0 (by simp [hlo])] at h
      simp at h
    | none =>
      cases hb : m.free_blocks.getLast? with
      | none =>
        rw [append_token_of_miss_empty s m h0 hlo hb] at h
        exact (congrArg (fun q => q.1) h).symm
      | some b =>
        rw [append_token_of_miss_alloc s m b h0 hlo hb] at h
        simp at h

/-! ### Claim C2 -/

/-- C2: `append_token` is atomic.  When the pool's allocate fails with
`OutOfBlocks` during the append (the token's logical block is unmapped and
the free list is empty), the raised error carries the sequence id and the
token position and both `token_count` and the mapping are left exactly as
they were; on success `token_count` is incremented by one and logical
block `token_count_before / block_capacity` is present in the mapping. -/
theorem append_token_atomic (s : Sequence) (m : BlockManager)
    (hbs : 0 < m.block_size) :
    (s.block_table.lookup (s.token_count / m.block_size) = none →
      m.free_blocks = [] →
      s.append_token m =
        ((s, m), some (SeqError.allocFailed s.request_id s.token_count
          PoolError.outOfBlocks))) ∧
    (∀ s1 m1, s.append_token m = ((s1, m1), none) →
      s1.token_count = s.token_count + 1 ∧
      (s1.block_table.lookup (s.token_count / m.block_size)).isSome = true) := by
  have h0 : m.block_size ≠ 0 := by omega
  constructor
  · intro hl hfree
    exact append_token_of_miss_empty s m h0 hl (by simp [hfree])
  · intro s1 m1 h
    obtain ⟨-, -, htc, hcase⟩ := append_token_ok_cases s m s1 m1 h
    refine ⟨htc, ?_⟩
    rcases hcase with ⟨hbt, -, hl⟩ | ⟨b, -, hl, hbt, -⟩
    · rw [hbt]
      exact hl
    · rw [hbt, lookup_append_new _ _ _ hl]
      rfl

/-- Witness for C2: a pool with block capacity 1 and no free blocks makes
the first append fail and leave the fresh sequence untouched. -/
theorem append_token_atomic_witness :
    (0 : Nat) < 1 ∧
    (Sequence.init "w2").append_token (BlockManager.mk 0 1 1 1 1 [])
      = ((Sequence.init "w2", BlockManager.mk 0 1 1 1 1 []),
          some (SeqError.allocFailed "w2" 0 PoolError.outOfBlocks)) :=
  ⟨by decide,
    (append_token_atomic (Sequence.init "w2") (BlockManager.mk 0 1 1 1 1 [])
      (by decide)).1 rfl rfl⟩

/-! ### Claim C3 -/

/-- C3: `translate` (named `get_physical_block` in the code) returns, for
every in-range token index `k`, offset `k mod block_capacity` together
with the mapping's entry for logical block `k div block_capacity`; that
entry is never altered by later appends.  For `k` negative or beyond
`token_count` it fails with `TokenIndexOutOfRange`, and with
`UnmappedLogicalBlock` when the computed logical index is unmapped. -/
theorem translate_spec (s : Sequence) (m : BlockManager) :
    (∀ k : Int, k < 0 ∨ (s.token_count : Int) ≤ k →
        s.get_physical_block k m =
          Except.error (SeqError.tokenIndexOutOfRange k)) ∧
    (0 < m.block_size → ∀ k : Int, 0 ≤ k → k < (s.token_count : Int) →
        (∀ p, s.block_table.lookup (k.toNat / m.block_size) = some p →
            s.get_physical_block k m = Except.ok (p, k.toNat % m.block_size)) ∧
        (s.block_table.lookup (k.toNat / m.block_size) = none →
            s.get_physical_block k m =
              Except.error (SeqError.unmappedLogicalBlock
                (k.toNat / m.block_size)))) ∧
    (∀ s1 m1, s.append_token m = ((s1, m1), none) →
        ∀ j p, s.block_table.lookup j = some p →
            s1.block_table.lookup j = some p) := by
  refine ⟨fun k hk => ?_, fun hbs k hk0 hk1 => ⟨fun p hp => ?_, fun hp => ?_⟩,
    fun s1 m1 h j p hp => ?_⟩
  · simp [Sequence.get_physical_block, hk]
  · have hk' : ¬(k < 0 ∨ (s.token_count : Int) ≤ k) := by omega
    have h0 : m.block_size ≠ 0 := by omega
    simp [Sequence.get_physical_block, hk', h0, hp]
  · have hk' : ¬(k < 0 ∨ (s.token_count : Int) ≤ k) := by omega
    have h0 : m.block_size ≠ 0 := by omega
    simp [Sequence.get_physical_block, hk', h0, hp]
  · obtain ⟨-, -, -, hcase⟩ := append_token_ok_cases s m s1 m1 h
    rcases hcase with ⟨hbt, -, -⟩ | ⟨b, -, -, hbt, -⟩
    · rw [hbt]
      exact hp
    · rw [hbt]
      exact lookup_append_mono _ _ _ _ _ hp

/-- Witness for C3 on a concrete two-block sequence: an out-of-range
index fails, and an in-range index resolves to block/offset. -/
theorem translate_spec_witness :
    (Sequence.mk "w3" 3 [(0, 7), (1, 4)]).get_physical_block 5
        (BlockManager.mk 10 2 1 1 1 [5])
      = Except.error (SeqError.tokenIndexOutOfRange 5) ∧
    (Sequence.mk "w3" 3 [(0, 7), (1, 4)]).get_physical_block 2
        (BlockManager.mk 10 2 1 1 1 [5])
      = Except.ok (4, 0) :=
  ⟨(translate_spec (Sequence.mk "w3" 3 [(0, 7), (1, 4)])
      (BlockManager.mk 10 2 1 1 1 [5])).1 5 (by decide),
   ((translate_spec (Sequence.mk "w3" 3 [(0, 7), (1, 4)])
      (BlockManager.mk 10 2 1 1 1 [5])).2.1 (by decide) 2 (by decide)
      (by decide)).1 4 rfl⟩

/-! ### Characterization of free_block and the release loop -/

lemma free_block_ok_cases (m : BlockManager) (i : Int) (m1 : BlockManager)
    (h : m.free_block i = (m1, none)) :
    0 ≤ i ∧ i < (m.num_blocks : Int) ∧ i.toNat ∉ m.free_blocks ∧
    m1 = { m with free_blocks := m.free_blocks ++ [i.toNat] } := by
  by_cases h1 : i < 0 ∨ (m.num_blocks : Int) ≤ i
  · simp [BlockManager.free_block, h1] at h
  · by_cases h2 : i.toNat ∈ m.free_blocks
    · simp [BlockManager.free_block, h1, h2] at h
    · refine ⟨by omega, by omega, h2, ?_⟩
      have h' := h
      simp only [BlockManager.free_block, if_neg h1, if_neg h2] at h'
      exact (congrArg Prod.fst h').symm

lemma free_block_err_state (m : BlockManager) (i : Int) (m1 : BlockManager)
    (e : PoolError) (h : m.free_block i = (m1, some e)) : m1 = m := by
  by_cases h1 : i < 0 ∨ (m.num_blocks : Int) ≤ i
  · simp only [BlockManager.free_block, if_pos h1] at h
    exact (congrArg Prod.fst h).symm
  · by_cases h2 : i.toNat ∈ m.free_blocks
    · simp only [BlockManager.free_block, if_neg h1, if_pos h2] at h
      exact (congrArg Prod.fst h).symm
    · simp [BlockManager.free_block, if_neg h1, if_neg h2] at h

/-- A fully successful release loop appends exactly the released ids, in
order, to the free list; every released id was in range. -/
lemma freeLoop_ok (vs : List Nat) : ∀ m m1 : BlockManager,
    freeLoop vs m = (m1, none) →
    m1 = { m with free_blocks := m.free_blocks ++ vs } ∧
    ∀ v ∈ vs, v < m.num_blocks := by
  induction vs with
  | nil =>
    intro m m1 h
    simp only [freeLoop] at h
    refine ⟨?_, by simp⟩
    have := (congrArg Prod.fst h).symm
    simpa using this
  | cons v rest ih =>
    intro m m1 h
    simp only [freeLoop] at h
    rcases hfb : m.free_block (v : Int) with ⟨mf, oe⟩
    rw [hfb] at h
    cases oe with
    | some e => simp at h
    | none =>
      obtain ⟨-, hrange, -, hmf⟩ := free_block_ok_cases m (v : Int) mf hfb
      subst hmf
      obtain ⟨hm1, hall⟩ := ih _ _ h
      constructor
      · rw [hm1]
        simp
      · intro x hx
        rcases List.mem_cons.mp hx with rfl | hx'
        · omega
        · exact hall x hx'

/-- A failing release loop stops at the first failing id: the ids before
it were all released successfully and the manager state at the failure is
returned unchanged by the failing call. -/
lemma freeLoop_err (vs : List Nat) : ∀ m m1 : BlockManager, ∀ e : PoolError,
    freeLoop vs m = (m1, some e) →
    ∃ (pre : List Nat) (b : Nat) (post : List Nat) (m2 : BlockManager),
      vs = pre ++ b :: post ∧ freeLoop pre m = (m2, none) ∧
      m2.free_block (b : Int) = (m2, some e) ∧ m1 = m2 := by
  induction vs with
  | nil =>
    intro m m1 e h
    simp [freeLoop] at h
  | cons v rest ih =>
    intro m m1 e h
    simp only [freeLoop] at h
    rcases hfb : m.free_block (v : Int) with ⟨mf, oe⟩
    rw [hfb] at h
    cases oe with
    | some e1 =>
      have hmf : mf = m := free_block_err_state m (v : Int) mf e1 hfb
      have hm1 : m1 = mf ∧ e = e1 := by
        constructor
        · exact (congrArg Prod.fst h).symm
        · have := congrArg Prod.snd h
          simpa using this.symm
      refine ⟨[], v, rest, m, by simp, by simp [freeLoop], ?_, ?_⟩
      · rw [← hm1.2, hmf] at hfb
        exact hfb
      · rw [hm1.1, hmf]
    | none =>
      obtain ⟨pre, b, post, m2, hvs, hpre, hfail, hm1⟩ := ih mf m1 e h
      refine ⟨v :: pre, b, post, m2, by simp [hvs], ?_, hfail, hm1⟩
      simp only [freeLoop, hfb]
      exact hpre

/-- A successful prefix lets the loop continue on the remainder. -/
lemma freeLoop_append (xs ys : List Nat) : ∀ m m2 : BlockManager,
    freeLoop xs m = (m2, none) → freeLoop (xs ++ ys) m = freeLoop ys m2 := by
  induction xs with
  | nil =>
    intro m m2 h
    simp only [freeLoop] at h
    have : m = m2 := by
      have := congrArg Prod.fst h
      simpa using this
    simp [this]
  | cons v rest ih =>
    intro m m2 h
    simp only [freeLoop] at h ⊢
    rcases hfb : m.free_block (v : Int) with ⟨mf, oe⟩
    rw [hfb] at h
    cases oe with
    | some e => simp at h
    | none => exact ih mf m2 h

/-! ### Claim C9 -/

/-- C9: `release_all` (named `free_all_blocks` in the code) clears the
mapping and resets `token_count` to 0 exactly when every individual
release succeeded; when some release fails, the first failing release's
error propagates and the table is left untouched, so every entry for a
block it still owns is kept and no block reference is lost. -/
theorem release_all_clear_iff (s : Sequence) (m : BlockManager) :
    (∀ s1 m1, s.free_all_blocks m = ((s1, m1), none) →
        s1.block_table = [] ∧ s1.token_count = 0 ∧
        m1 = { m with
          free_blocks := m.free_blocks ++ s.block_table.map Prod.snd }) ∧
    (∀ s1 m1 e, s.free_all_blocks m = ((s1, m1), some e) →
        s1 = s ∧
        ∃ (pre : List Nat) (b : Nat) (post : List Nat),
          s.block_table.map Prod.snd = pre ++ b :: post ∧
          freeLoop pre m = (m1, none) ∧
          m1.free_block (b : Int) = (m1, some e)) := by
  constructor
  · intro s1 m1 h
    rw [Sequence.free_all_blocks] at h
    rcases hfl : freeLoop (s.block_table.map Prod.snd) m with ⟨mf, oe⟩
    rw [hfl] at h
    cases oe with
    | some e => simp at h
    | none =>
      have hs1 : s1 = { s with block_table := [], token_count := 0 } := by
        have := congrArg (fun p => p.1.1) h
        simpa using this.symm
      have hm1 : m1 = mf := by
        have := congrArg (fun p => p.1.2) h
        simpa using this.symm
      obtain ⟨hmf, -⟩ := freeLoop_ok _ _ _ hfl
      subst hs1
      exact ⟨rfl, rfl, by rw [hm1, hmf]⟩
  · intro s1 m1 e h
    rw [Sequence.free_all_blocks] at h
    rcases hfl : freeLoop (s.block_table.map Prod.snd) m with ⟨mf, oe⟩
    rw [hfl] at h
    cases oe with
    | some e1 =>
      have hs1 : s1 = s := by
        have := congrArg (fun p => p.1.1) h
        simpa using this.symm
      have hm1 : m1 = mf := by
        have := congrArg (fun p => p.1.2) h
        simpa using this.symm
      have he : e1 = e := by
        have := congrArg (fun p => p.2) h
        simpa using this
      obtain ⟨pre, b, post, m2, hvs, hpre, hfail, hm2⟩ :=
        freeLoop_err _ _ _ _ hfl
      subst he
      refine ⟨hs1, pre, b, post, hvs, ?_, ?_⟩
      · rw [hm1, hm2]
        exact hpre
      · rw [hm1, hm2]
        exact hfail
    | none => simp at h

/-- Witness for C9: a table holding an out-of-range id 5; the first entry
is released, the second fails, and the table is kept intact. -/
theorem release_all_clear_iff_witness :
    (Sequence.mk "w9" 2 [(0, 0), (1, 5)]).free_all_blocks
        (BlockManager.mk 2 1 1 1 1 [1])
      = ((Sequence.mk "w9" 2 [(0, 0), (1, 5)],
          BlockManager.mk 2 1 1 1 1 [1, 0]), some (PoolError.invalidBlockId 5)) ∧
    (Sequence.mk "w9" 2 [(0, 0), (1, 5)]
        = Sequence.mk "w9" 2 [(0, 0), (1, 5)] ∧
      ∃ (pre : List Nat) (b : Nat) (post : List Nat),
        (Sequence.mk "w9" 2 [(0, 0), (1, 5)]).block_table.map Prod.snd
          = pre ++ b :: post ∧
        freeLoop pre (BlockManager.mk 2 1 1 1 1 [1])
          = (BlockManager.mk 2 1 1 1 1 [1, 0], none) ∧
        (BlockManager.mk 2 1 1 1 1 [1, 0]).free_block (b : Int)
          = (BlockManager.mk 2 1 1 1 1 [1, 0], some (PoolError.invalidBlockId 5))) :=
  ⟨rfl,
    (release_all_clear_iff (Sequence.mk "w9" 2 [(0, 0), (1, 5)])
      (BlockManager.mk 2 1 1 1 1 [1])).2
      (Sequence.mk "w9" 2 [(0, 0), (1, 5)]) (BlockManager.mk 2 1 1 1 1 [1, 0])
      (PoolError.invalidBlockId 5) rfl⟩

/-! ### Claim C10 -/

/-- C10: if a release fails on entry `b` after the earlier entries
`b0 :: pre` were already returned to the pool, `release_all` propagates
that error while the mapping still contains the already-released ids, so
those ids are simultaneously in the pool's free set and in the mapping,
and a second `release_all` fails with `DoubleFree` on the first of them. -/
theorem release_partial_then_double_free (s : Sequence) (m m2 : BlockManager)
    (b0 b : Nat) (pre post : List Nat) (e : PoolError)
    (hvals : s.block_table.map Prod.snd = (b0 :: pre) ++ b :: post)
    (hpre : freeLoop (b0 :: pre) m = (m2, none))
    (hfail : m2.free_block (b : Int) = (m2, some e)) :
    s.free_all_blocks m = ((s, m2), some e) ∧
    (∀ x ∈ b0 :: pre, x ∈ m2.free_blocks ∧ x ∈ s.block_table.map Prod.snd) ∧
    s.free_all_blocks m2 = ((s, m2), some (PoolError.doubleFree (b0 : Int))) := by
  obtain ⟨hm2, hrange⟩ := freeLoop_ok _ _ _ hpre
  have hnum : m2.num_blocks = m.num_blocks := by rw [hm2]
  have hmem : ∀ x ∈ b0 :: pre, x ∈ m2.free_blocks := by
    intro x hx
    rw [hm2]
    simp [hx]
  have hfirst : m2.free_block ((b0 : Nat) : Int)
      = (m2, some (PoolError.doubleFree (b0 : Int))) := by
    have hb0r : b0 < m2.num_blocks := by
      rw [hnum]
      exact hrange b0 (by simp)
    have hc1 : ¬(((b0 : Nat) : Int) < 0 ∨ (m2.num_blocks : Int) ≤ (b0 : Nat)) := by
      omega
    have hc2 : ((b0 : Nat) : Int).toNat ∈ m2.free_blocks := by
      simpa using hmem b0 (by simp)
    simp only [BlockManager.free_block]
    rw [if_neg hc1, if_pos hc2]
  refine ⟨?_, fun x hx => ⟨hmem x hx, by
    rw [hvals]
    rcases List.mem_cons.mp hx with rfl | hxp
    · simp
    · simp [hxp]⟩, ?_⟩
  · rw [Sequence.free_all_blocks, hvals, freeLoop_append _ _ _ _ hpre]
    simp only [freeLoop, hfail]
  · have hvals2 : s.block_table.map Prod.snd = b0 :: (pre ++ b :: post) := by
      rw [hvals]
      simp
    rw [Sequence.free_all_blocks, hvals2]
    simp only [freeLoop, hfirst]

/-- Witness for C10: entry 0 is released, entry 5 is out of range and
fails, and a second `release_all` double-frees id 0. -/
theorem release_partial_then_double_free_witness :
    (Sequence.mk "wX" 2 [(0, 0), (1, 5)]).free_all_blocks
        (BlockManager.mk 2 1 1 1 1 [1])
      = ((Sequence.mk "wX" 2 [(0, 0), (1, 5)],
          BlockManager.mk 2 1 1 1 1 [1, 0]), some (PoolError.invalidBlockId 5)) ∧
    (∀ x ∈ [0], x ∈ (BlockManager.mk 2 1 1 1 1 [1, 0]).free_blocks ∧
        x ∈ (Sequence.mk "wX" 2 [(0, 0), (1, 5)]).block_table.map Prod.snd) ∧
    (Sequence.mk "wX" 2 [(0, 0), (1, 5)]).free_all_blocks
        (BlockManager.mk 2 1 1 1 1 [1, 0])
      = ((Sequence.mk "wX" 2 [(0, 0), (1, 5)],
          BlockManager.mk 2 1 1 1 1 [1, 0]), some (PoolError.doubleFree 0)) :=
  release_partial_then_double_free (Sequence.mk "wX" 2 [(0, 0), (1, 5)])
    (BlockManager.mk 2 1 1 1 1 [1]) (BlockManager.mk 2 1 1 1 1 [1, 0])
    0 5 [] [] (PoolError.invalidBlockId 5) rfl rfl rfl

/-! ### Claim C8 -/

/-- Reference iteration: exactly `n` successful `append_token` steps. -/
def appendExact : Nat → Sequence × BlockManager → Option (Sequence × BlockManager)
  | 0, p => some p
  | Nat.succ k, p =>
    match p.1.append_token p.2 with
    | (q, none) => appendExact k q
    | (_, some _) => none

lemma append_tokens_succ_ok (s : Sequence) (m : BlockManager) (k : Nat)
    (s2 : Sequence) (m2 : BlockManager)
    (hap : s.append_token m = ((s2, m2), none)) :
    s.append_tokens m (k + 1) = s2.append_tokens m2 k := by
  simp only [Sequence.append_tokens, hap]

lemma append_tokens_succ_err (s : Sequence) (m : BlockManager) (k : Nat)
    (p : Sequence × BlockManager) (e : SeqError)
    (hap : s.append_token m = (p, some e)) :
    s.append_tokens m (k + 1) = (p, some e) := by
  simp only [Sequence.append_tokens, hap]

lemma appendExact_succ_ok (k : Nat) (p q : Sequence × BlockManager)
    (hap : p.1.append_token p.2 = (q, none)) :
    appendExact (k + 1) p = appendExact k q := by
  simp only [appendExact, hap]

lemma append_token_mono (s : Sequence) (m : BlockManager) (s1 : Sequence)
    (m1 : BlockManager) (h : s.append_token m = ((s1, m1), none)) :
    ∀ j p, s.block_table.lookup j = some p → s1.block_table.lookup j = some p := by
  obtain ⟨-, -, -, hcase⟩ := append_token_ok_cases s m s1 m1 h
  intro j p hp
  rcases hcase with ⟨hbt, -, -⟩ | ⟨b, -, -, hbt, -⟩
  · rw [hbt]
    exact hp
  · rw [hbt]
    exact lookup_append_mono _ _ _ _ _ hp

lemma append_tokens_ok_exact : ∀ (n : Nat) (s : Sequence) (m : BlockManager)
    (s1 : Sequence) (m1 : BlockManager),
    s.append_tokens m n = ((s1, m1), none) →
    appendExact n (s, m) = some (s1, m1) ∧
    s1.token_count = s.token_count + n := by
  intro n
  induction n with
  | zero =>
    intro s m s1 m1 h
    simp only [Sequence.append_tokens] at h
    have hs : s = s1 := congrArg (fun q => q.1.1) h
    have hm : m = m1 := congrArg (fun q => q.1.2) h
    subst hs; subst hm
    exact ⟨rfl, rfl⟩
  | succ k ih =>
    intro s m s1 m1 h
    rcases hap : s.append_token m with ⟨⟨s2, m2⟩, oe⟩
    cases oe with
    | some e =>
      rw [append_tokens_succ_err s m k _ e hap] at h
      simp at h
    | none =>
      rw [append_tokens_succ_ok s m k s2 m2 hap] at h
      obtain ⟨hex, htc⟩ := ih s2 m2 s1 m1 h
      have htc2 := (append_token_ok_cases s m s2 m2 hap).2.2.1
      refine ⟨?_, by omega⟩
      rw [appendExact_succ_ok k (s, m) (s2, m2) hap]
      exact hex

lemma append_tokens_err_exact : ∀ (n : Nat) (s : Sequence) (m : BlockManager)
    (s1 : Sequence) (m1 : BlockManager) (e : SeqError),
    s.append_tokens m n = ((s1, m1), some e) →
    ∃ k, k < n ∧ appendExact k (s, m) = some (s1, m1) ∧
      s1.token_count = s.token_count + k ∧
      s1.append_token m1 = ((s1, m1), some e) ∧
      ∀ j p, s.block_table.lookup j = some p →
        s1.block_table.lookup j = some p := by
  intro n
  induction n with
  | zero =>
    intro s m s1 m1 e h
    simp only [Sequence.append_tokens] at h
    simp at h
  | succ k ih =>
    intro s m s1 m1 e h
    rcases hap : s.append_token m with ⟨⟨s2, m2⟩, oe⟩
    cases oe with
    | some e1 =>
      rw [append_tokens_succ_err s m k _ e1 hap] at h
      have hp2 : (s2, m2) = (s, m) := append_token_err_state s m (s2, m2) e1 hap
      have hpair : (s1, m1) = (s, m) := by
        rw [← show (s2, m2) = (s1, m1) from congrArg Prod.fst h]
        exact hp2
      have hs1 : s1 = s := congrArg Prod.fst hpair
      have hm1 : m1 = m := congrArg Prod.snd hpair
      have he : e1 = e := by simpa using congrArg Prod.snd h
      refine ⟨0, by omega, ?_, ?_, ?_, ?_⟩
      · simpa [appendExact] using congrArg some hpair.symm
      · rw [hs1]
        omega
      · rw [hs1, hm1, ← he, hap, hp2]
      · intro j p hpp
        rw [hs1]
        exact hpp
    | none =>
      rw [append_tokens_succ_ok s m k s2 m2 hap] at h
      obtain ⟨k1, hk, hex, htc, hfail, hmono⟩ := ih s2 m2 s1 m1 e h
      have htc2 := (append_token_ok_cases s m s2 m2 hap).2.2.1
      refine ⟨k1 + 1, by omega, ?_, by omega, hfail, ?_⟩
      · rw [appendExact_succ_ok k1 (s, m) (s2, m2) hap]
        exact hex
      · intro j p hp
        exact hmono j p (append_token_mono s m s2 m2 hap j p hp)

/-- C8: `append_tokens(pool, n)` applies `append_token` exactly `n` times
in order; it stops at the first failure, returning the state after the
last successful append: after a failure at token `k < n`, `token_count`
has increased by exactly `k`, the mapping of the last successful state is
retained (old entries included — nothing is rolled back), and the failing
append's error is propagated. -/
theorem append_tokens_spec (s : Sequence) (m : BlockManager) (n : Nat) :
    (∀ s1 m1, s.append_tokens m n = ((s1, m1), none) →
        appendExact n (s, m) = some (s1, m1) ∧
        s1.token_count = s.token_count + n) ∧
    (∀ s1 m1 e, s.append_tokens m n = ((s1, m1), some e) →
        ∃ k, k < n ∧ appendExact k (s, m) = some (s1, m1) ∧
          s1.token_count = s.token_count + k ∧
          s1.append_token m1 = ((s1, m1), some e) ∧
          ∀ j p, s.block_table.lookup j = some p →
            s1.block_table.lookup j = some p) :=
  ⟨fun s1 m1 h => append_tokens_ok_exact n s m s1 m1 h,
   fun s1 m1 e h => append_tokens_err_exact n s m s1 m1 e h⟩

/-- Witness for C8: a one-block pool with capacity 1; a 3-token batch
fails at token 1 having kept the first token's state. -/
theorem append_tokens_spec_witness :
    ∃ k, k < 3 ∧
      appendExact k (Sequence.init "w8", BlockManager.init 1 1 1 1 1)
        = some (Sequence.mk "w8" 1 [(0, 0)], BlockManager.mk 1 1 1 1 1 []) ∧
      (Sequence.mk "w8" 1 [(0, 0)]).token_count
        = (Sequence.init "w8").token_count + k ∧
      (Sequence.mk "w8" 1 [(0, 0)]).append_token (BlockManager.mk 1 1 1 1 1 [])
        = ((Sequence.mk "w8" 1 [(0, 0)], BlockManager.mk 1 1 1 1 1 []),
            some (SeqError.allocFailed "w8" 1 PoolError.outOfBlocks)) ∧
      ∀ j p, (Sequence.init "w8").block_table.lookup j = some p →
          (Sequence.mk "w8" 1 [(0, 0)]).block_table.lookup j = some p :=
  (append_tokens_spec (Sequence.init "w8") (BlockManager.init 1 1 1 1 1) 3).2
    (Sequence.mk "w8" 1 [(0, 0)]) (BlockManager.mk 1 1 1 1 1 [])
    (SeqError.allocFailed "w8" 1 PoolError.outOfBlocks) rfl

/-! ### Claims C4 and C7: sequences grown by successful appends -/

/-- States of a (sequence, pool) pair reachable from a given start by
finitely many successful `append_token` calls. -/
inductive AppendReach (p : Sequence × BlockManager) :
    Sequence × BlockManager → Prop
  | refl : AppendReach p p
  | step (q r : Sequence × BlockManager) (h : AppendReach p q)
      (hr : q.1.append_token q.2 = (r, none)) : AppendReach p r

lemma mul_add_div_lt (bs q r : Nat) (hbs : 0 < bs) (hr : r < bs) :
    (bs * q + r) / bs = q := by
  rw [Nat.mul_add_div hbs, Nat.div_eq_of_lt hr]
  omega

lemma lt_ceil_iff (bs tc j : Nat) (hbs : 0 < bs) :
    j < (tc + bs - 1) / bs ↔ j * bs < tc := by
  obtain ⟨qd, rd, rfl, hrd⟩ : ∃ qd rd, tc = bs * qd + rd ∧ rd < bs :=
    ⟨tc / bs, tc % bs, (Nat.div_add_mod tc bs).symm, Nat.mod_lt tc hbs⟩
  rcases Nat.eq_zero_or_pos rd with h0 | h0
  · subst h0
    have hc : (bs * qd + 0 + bs - 1) / bs = qd := by
      have he : bs * qd + 0 + bs - 1 = bs * qd + (bs - 1) := by omega
      rw [he, mul_add_div_lt bs qd (bs - 1) hbs (by omega)]
    rw [hc, Nat.add_zero, Nat.mul_comm bs qd]
    exact (Nat.mul_lt_mul_right hbs).symm
  · have hc : (bs * qd + rd + bs - 1) / bs = qd + 1 := by
      have he : bs * qd + rd + bs - 1 = bs * (qd + 1) + (rd - 1) := by
        rw [Nat.mul_succ]
        omega
      rw [he, mul_add_div_lt bs (qd + 1) (rd - 1) hbs (by omega)]
    rw [hc]
    constructor
    · intro hj
      have h1 : j * bs ≤ qd * bs := Nat.mul_le_mul_right bs (by omega)
      have h2 : qd * bs = bs * qd := Nat.mul_comm qd bs
      omega
    · intro hj
      have h1 : j * bs < (qd + 1) * bs := by
        have h2 : (qd + 1) * bs = bs * qd + bs := by
          rw [Nat.succ_mul, Nat.mul_comm qd bs]
        omega
      exact lt_of_mul_lt_mul_right h1 (Nat.zero_le bs)

/-- Invariant of append-reachable states: pool dimensions are unchanged
and the mapping's key list is exactly `range (ceil (token_count / bs))`. -/
lemma reach_keys (rid : String) (m0 : BlockManager)
    (p : Sequence × BlockManager)
    (h : AppendReach (Sequence.init rid, m0) p) :
    p.2.block_size = m0.block_size ∧ p.2.num_blocks = m0.num_blocks ∧
    p.1.block_table.map Prod.fst =
      List.range ((p.1.token_count + p.2.block_size - 1) / p.2.block_size) := by
  induction h with
  | refl =>
    refine ⟨rfl, rfl, ?_⟩
    have hz : (m0.block_size - 1) / m0.block_size = 0 := by
      rcases Nat.eq_zero_or_pos m0.block_size with h0 | h0
      · simp [h0]
      · exact Nat.div_eq_of_lt (by omega)
    simp [Sequence.init, hz]
  | step q1 r1 hreach hr ih =>
    obtain ⟨ihbs, ihnb, ihk⟩ := ih
    rcases q1 with ⟨sq, mq⟩
    rcases r1 with ⟨sr, mr⟩
    obtain ⟨h0, -, htc, hcase⟩ := append_token_ok_cases sq mq sr mr hr
    have hbs : mr.block_size = mq.block_size := by
      rcases hcase with ⟨-, hm, -⟩ | ⟨b, -, -, -, hm⟩ <;> rw [hm]
    have hnb : mr.num_blocks = mq.num_blocks := by
      rcases hcase with ⟨-, hm, -⟩ | ⟨b, -, -, -, hm⟩ <;> rw [hm]
    simp only at ihk ⊢
    refine ⟨by rw [hbs, ihbs], by rw [hnb, ihnb], ?_⟩
    obtain ⟨qd, rd, htcdef, hrd⟩ :
        ∃ qd rd, sq.token_count = mq.block_size * qd + rd ∧ rd < mq.block_size :=
      ⟨sq.token_count / mq.block_size, sq.token_count % mq.block_size,
        (Nat.div_add_mod _ _).symm, Nat.mod_lt _ (by omega)⟩
    have hdiv : sq.token_count / mq.block_size = qd := by
      rw [htcdef]
      exact mul_add_div_lt _ _ _ (by omega) hrd
    have hceil1 : (sq.token_count + 1 + mq.block_size - 1) / mq.block_size
        = qd + 1 := by
      have he : sq.token_count + 1 + mq.block_size - 1
          = mq.block_size * (qd + 1) + rd := by
        rw [htcdef, Nat.mul_succ]
        omega
      rw [he, mul_add_div_lt _ _ _ (by omega) hrd]
    rw [htc, hbs, hceil1]
    rcases hcase with ⟨hbt, -, hl⟩ | ⟨b, -, hl, hbt, -⟩
    · have hmem : sq.token_count / mq.block_size ∈ sq.block_table.map Prod.fst :=
        (lookup_isSome_mem_keys _ _).mp hl
      rw [ihk, List.mem_range] at hmem
      have hc : (sq.token_count + mq.block_size - 1) / mq.block_size = qd + 1 := by
        rcases Nat.eq_zero_or_pos rd with h0' | h0'
        · exfalso
          have hq : (sq.token_count + mq.block_size - 1) / mq.block_size = qd := by
            have he : sq.token_count + mq.block_size - 1
                = mq.block_size * qd + (mq.block_size - 1) := by
              rw [htcdef]
              omega
            rw [he, mul_add_div_lt _ _ _ (by omega) (by omega)]
          rw [hdiv, hq] at hmem
          omega
        · have he : sq.token_count + mq.block_size - 1
              = mq.block_size * (qd + 1) + (rd - 1) := by
            rw [htcdef, Nat.mul_succ]
            omega
          rw [he, mul_add_div_lt _ _ _ (by omega) (by omega)]
      rw [hbt, ihk, hc]
    · have hnmem : sq.token_count / mq.block_size ∉ sq.block_table.map Prod.fst := by
        rw [← lookup_isSome_mem_keys]
        simp [hl]
      rw [ihk, List.mem_range] at hnmem
      have hrd0 : rd = 0 := by
        by_contra h0'
        apply hnmem
        have he : sq.token_count + mq.block_size - 1
            = mq.block_size * (qd + 1) + (rd - 1) := by
          rw [htcdef, Nat.mul_succ]
          omega
        rw [hdiv, he, mul_add_div_lt _ _ _ (by omega) (by omega)]
        omega
      have hc : (sq.token_count + mq.block_size - 1) / mq.block_size = qd := by
        have he : sq.token_count + mq.block_size - 1
            = mq.block_size * qd + (mq.block_size - 1) := by
          rw [htcdef]
          omega
        rw [he, mul_add_div_lt _ _ _ (by omega) (by omega)]
      rw [hbt, List.map_append, ihk, hc, hdiv]
      simp [List.range_succ]

/-- Invariant of append-reachable states: every block the sequence holds
came out of the pool, one per allocation. -/
lemma reach_free_count (rid : String) (m0 : BlockManager)
    (p : Sequence × BlockManager)
    (h : AppendReach (Sequence.init rid, m0) p) :
    p.2.free_blocks.length + p.1.block_table.length = m0.free_blocks.length := by
  induction h with
  | refl => simp [Sequence.init]
  | step q1 r1 hreach hr ih =>
    rcases q1 with ⟨sq, mq⟩
    rcases r1 with ⟨sr, mr⟩
    obtain ⟨-, -, -, hcase⟩ := append_token_ok_cases sq mq sr mr hr
    simp only at ih ⊢
    rcases hcase with ⟨hbt, hm, -⟩ | ⟨b, hb, -, hbt, hm⟩
    · rw [hbt, hm]
      exact ih
    · rw [hbt, hm]
      have hne : mq.free_blocks ≠ [] := by
        intro hc
        rw [hc] at hb
        simp at hb
      have hlen : mq.free_blocks.dropLast.length = mq.free_blocks.length - 1 := by
        simp
      have hpos : 0 < mq.free_blocks.length := List.length_pos.mpr hne
      simp only [List.length_append, List.length_cons, List.length_nil]
      omega

/-- C4: for every sequence grown from a fresh sequence by successful
appends, `block_count()` equals `ceil(token_count / block_capacity)`, and
a logical index is in the mapping exactly when some appended token
occupies that logical block. -/
theorem block_count_ceil (rid : String) (m0 : BlockManager) (s : Sequence)
    (m : BlockManager) (h : AppendReach (Sequence.init rid, m0) (s, m))
    (hbs : 0 < m.block_size) :
    s.get_num_blocks = (s.token_count + m.block_size - 1) / m.block_size ∧
    ∀ j, (s.block_table.lookup j).isSome ↔
      ∃ t, t < s.token_count ∧ t / m.block_size = j := by
  obtain ⟨-, -, hkeys⟩ := reach_keys rid m0 (s, m) h
  simp only at hkeys
  constructor
  · have hlen := congrArg List.length hkeys
    simpa [Sequence.get_num_blocks] using hlen
  · intro j
    rw [lookup_isSome_mem_keys, hkeys, List.mem_range, lt_ceil_iff _ _ _ hbs]
    constructor
    · intro hj
      exact ⟨j * m.block_size, hj, Nat.mul_div_cancel j hbs⟩
    · rintro ⟨t, ht, rfl⟩
      calc t / m.block_size * m.block_size ≤ t := Nat.div_mul_le_self t _
        _ < s.token_count := ht

/-- Witness for C4: two appends into a capacity-2 pool give one mapped
block and `ceil(2 / 2) = 1`. -/
theorem block_count_ceil_witness :
    0 < (BlockManager.mk 3 2 1 1 1 [0, 1]).block_size ∧
    ((Sequence.mk "w4" 2 [(0, 2)]).get_num_blocks
      = ((Sequence.mk "w4" 2 [(0, 2)]).token_count
          + (BlockManager.mk 3 2 1 1 1 [0, 1]).block_size - 1)
        / (BlockManager.mk 3 2 1 1 1 [0, 1]).block_size ∧
    ∀ j, ((Sequence.mk "w4" 2 [(0, 2)]).block_table.lookup j).isSome ↔
      ∃ t, t < (Sequence.mk "w4" 2 [(0, 2)]).token_count
        ∧ t / (BlockManager.mk 3 2 1 1 1 [0, 1]).block_size = j) := by
  have h0 : AppendReach (Sequence.init "w4", BlockManager.init 3 2 1 1 1)
      (Sequence.mk "w4" 1 [(0, 2)], BlockManager.mk 3 2 1 1 1 [0, 1]) :=
    AppendReach.step _ _ AppendReach.refl rfl
  have h1 : AppendReach (Sequence.init "w4", BlockManager.init 3 2 1 1 1)
      (Sequence.mk "w4" 2 [(0, 2)], BlockManager.mk 3 2 1 1 1 [0, 1]) :=
    AppendReach.step _ _ h0 rfl
  exact ⟨by decide, block_count_ceil "w4" (BlockManager.init 3 2 1 1 1)
    (Sequence.mk "w4" 2 [(0, 2)]) (BlockManager.mk 3 2 1 1 1 [0, 1]) h1 (by decide)⟩

/-- C7: if a sequence allocated all of its blocks from a pool (it grew by
appends from a fresh sequence) and `release_all` succeeds, the pool's
`free_count()` returns to its value from before the sequence's first
allocation and the sequence's `block_count()` becomes 0. -/
theorem release_all_roundtrip (rid : String) (m0 : BlockManager) (s : Sequence)
    (m : BlockManager) (h : AppendReach (Sequence.init rid, m0) (s, m))
    (s1 : Sequence) (m1 : BlockManager)
    (hrel : s.free_all_blocks m = ((s1, m1), none)) :
    m1.get_num_free_blocks = m0.get_num_free_blocks ∧
    s1.get_num_blocks = 0 := by
  have hsum := reach_free_count rid m0 (s, m) h
  simp only at hsum
  rw [Sequence.free_all_blocks] at hrel
  rcases hfl : freeLoop (s.block_table.map Prod.snd) m with ⟨mf, oe⟩
  rw [hfl] at hrel
  cases oe with
  | some e => simp at hrel
  | none =>
    have hs1 : s1 = { s with block_table := [], token_count := 0 } := by
      have := congrArg (fun q => q.1.1) hrel
      simpa using this.symm
    have hm1 : m1 = mf := by
      have := congrArg (fun q => q.1.2) hrel
      simpa using this.symm
    obtain ⟨hmf, -⟩ := freeLoop_ok _ _ _ hfl
    constructor
    · rw [hm1, hmf]
      simp only [BlockManager.get_num_free_blocks, List.length_append,
        List.length_map]
      omega
    · rw [hs1]
      simp [Sequence.get_num_blocks]

/-- Witness for C7: one append from a 4-block pool, then a successful
`release_all`, restores the free count 4 and empties the table. -/
theorem release_all_roundtrip_witness :
    (BlockManager.mk 4 2 1 1 1 [0, 1, 2, 3]).get_num_free_blocks
      = (BlockManager.init 4 2 1 1 1).get_num_free_blocks ∧
    (Sequence.mk "w7" 0 []).get_num_blocks = 0 := by
  have h1 : AppendReach (Sequence.init "w7", BlockManager.init 4 2 1 1 1)
      (Sequence.mk "w7" 1 [(0, 3)], BlockManager.mk 4 2 1 1 1 [0, 1, 2]) :=
    AppendReach.step _ _ AppendReach.refl rfl
  exact release_all_roundtrip "w7" (BlockManager.init 4 2 1 1 1)
    (Sequence.mk "w7" 1 [(0, 3)]) (BlockManager.mk 4 2 1 1 1 [0, 1, 2]) h1
    (Sequence.mk "w7" 0 []) (BlockManager.mk 4 2 1 1 1 [0, 1, 2, 3]) rfl

/-! ### Claim C1: system-level exclusive ownership -/

/-- A pool together with the page tables of all live sequences. -/
structure SysState where
  mgr : BlockManager
  seqs : List Sequence

/-- Number of owners of physical id `b`: its multiplicity in the pool's
free list plus its multiplicity among every sequence's mapped ids. -/
def ownerCount (σ : SysState) (b : Nat) : Nat :=
  σ.mgr.free_blocks.count b
    + (σ.seqs.map (fun s => (s.block_table.map Prod.snd).count b)).sum

/-- System states reachable from a freshly constructed pool by any
interleaving of sequence creation, `append_token`, `append_tokens` and
`release_all` across any number of sequences — the pool's `allocate` and
`release` happen inside these calls.  Each step installs whatever states
the call returned, whether it succeeded or raised. -/
inductive Reachable : SysState → Prop
  | init (n bs nl nh hs : Nat) :
      Reachable ⟨BlockManager.init n bs nl nh hs, []⟩
  | newSeq (σ : SysState) (rid : String) (h : Reachable σ) :
      Reachable ⟨σ.mgr, σ.seqs ++ [Sequence.init rid]⟩
  | appendTok (σ : SysState) (i : Nat) (hi : i < σ.seqs.length)
      (h : Reachable σ) :
      Reachable ⟨((σ.seqs.get ⟨i, hi⟩).append_token σ.mgr).1.2,
        σ.seqs.set i ((σ.seqs.get ⟨i, hi⟩).append_token σ.mgr).1.1⟩
  | appendMany (σ : SysState) (i : Nat) (hi : i < σ.seqs.length) (n : Nat)
      (h : Reachable σ) :
      Reachable ⟨((σ.seqs.get ⟨i, hi⟩).append_tokens σ.mgr n).1.2,
        σ.seqs.set i ((σ.seqs.get ⟨i, hi⟩).append_tokens σ.mgr n).1.1⟩
  | releaseAll (σ : SysState) (i : Nat) (hi : i < σ.seqs.length)
      (h : Reachable σ) :
      Reachable ⟨((σ.seqs.get ⟨i, hi⟩).free_all_blocks σ.mgr).1.2,
        σ.seqs.set i ((σ.seqs.get ⟨i, hi⟩).free_all_blocks σ.mgr).1.1⟩

lemma set_get_self (l : List Sequence) (i : Nat) (hi : i < l.length) :
    l.set i (l.get ⟨i, hi⟩) = l := by
  apply List.ext_get
  · simp
  · intro n h1 h2
    rcases eq_or_ne n i with rfl | hne
    · simp
    · simp [List.getElem_set_ne (Ne.symm hne)]

lemma sum_map_set (f : Sequence → Nat) : ∀ (l : List Sequence) (i : Nat)
    (hi : i < l.length) (a : Sequence),
    ((l.set i a).map f).sum + f (l.get ⟨i, hi⟩) = (l.map f).sum + f a := by
  intro l
  induction l with
  | nil =>
    intro i hi
    simp at hi
  | cons x xs ih =>
    intro i hi a
    cases i with
    | zero => simp [List.set]; omega
    | succ i1 =>
      simp only [List.set, List.map_cons, List.sum_cons, List.get_cons_succ]
      have := ih i1 (by simpa using hi) a
      omega

lemma get_le_sum_map (f : Sequence → Nat) (l : List Sequence) (i : Nat)
    (hi : i < l.length) : f (l.get ⟨i, hi⟩) ≤ (l.map f).sum :=
  List.single_le_sum (fun x _ => Nat.zero_le x) _
    (List.mem_map_of_mem f (List.get_mem l i hi))

/-- Under the preconditions the invariant guarantees, the whole release
loop succeeds and appends the released ids in order. -/
lemma freeLoop_all_ok (vs : List Nat) : ∀ m : BlockManager,
    (∀ v ∈ vs, v < m.num_blocks) → (∀ v ∈ vs, v ∉ m.free_blocks) → vs.Nodup →
    freeLoop vs m = ({ m with free_blocks := m.free_blocks ++ vs }, none) := by
  induction vs with
  | nil =>
    intro m _ _ _
    simp [freeLoop]
  | cons v rest ih =>
    intro m hrange hfree hnd
    have hvr : v < m.num_blocks := hrange v (by simp)
    have hc1 : ¬((v : Int) < 0 ∨ (m.num_blocks : Int) ≤ (v : Int)) := by omega
    have hc2 : v ∉ m.free_blocks := hfree v (by simp)
    have hnotrest : v ∉ rest := (List.nodup_cons.mp hnd).1
    simp only [freeLoop, BlockManager.free_block, Int.toNat_natCast,
      if_neg hc1, if_neg hc2]
    rw [ih { m with free_blocks := m.free_blocks ++ [v] }
      (fun x hx => hrange x (by simp [hx]))
      (fun x hx => by
        simp only [List.mem_append, List.mem_singleton]
        rintro (hx1 | rfl)
        · exact hfree x (by simp [hx]) hx1
        · exact hnotrest hx)
      (List.nodup_cons.mp hnd).2]
    simp

/-- One `append_token` call on sequence `i`, installed in the system
state, preserves the exact-ownership count. -/
lemma inv_preserve_append (mgr : BlockManager) (seqs : List Sequence) (i : Nat)
    (hi : i < seqs.length) (s1 : Sequence) (m1 : BlockManager)
    (oe : Option SeqError)
    (hstep : (seqs.get ⟨i, hi⟩).append_token mgr = ((s1, m1), oe))
    (hinv : ∀ b, ownerCount ⟨mgr, seqs⟩ b = if b < mgr.num_blocks then 1 else 0) :
    ∀ b, ownerCount ⟨m1, seqs.set i s1⟩ b
      = if b < m1.num_blocks then 1 else 0 := by
  cases oe with
  | some e =>
    have hp := append_token_err_state _ _ _ _ hstep
    have hs1 : s1 = seqs.get ⟨i, hi⟩ := congrArg Prod.fst hp
    have hm1 : m1 = mgr := congrArg Prod.snd hp
    subst hs1
    subst hm1
    rw [set_get_self seqs i hi]
    exact hinv
  | none =>
    obtain ⟨-, -, -, hcase⟩ := append_token_ok_cases _ _ _ _ hstep
    rcases hcase with ⟨hbt, hm, -⟩ | ⟨blk, hblk, -, hbt, hm⟩
    · subst hm
      intro b
      rw [← hinv b]
      simp only [ownerCount]
      have hset := sum_map_set
        (fun s => (s.block_table.map Prod.snd).count b) seqs i hi s1
      have hcnt : (s1.block_table.map Prod.snd).count b
          = ((seqs.get ⟨i, hi⟩).block_table.map Prod.snd).count b := by
        rw [hbt]
      omega
    · have hnum : m1.num_blocks = mgr.num_blocks := by rw [hm]
      have hfb : m1.free_blocks = mgr.free_blocks.dropLast := by rw [hm]
      intro b
      rw [hnum, ← hinv b]
      simp only [ownerCount]
      rw [hfb]
      have hfull : mgr.free_blocks = mgr.free_blocks.dropLast ++ [blk] :=
        (List.dropLast_append_getLast? blk hblk).symm
      have hcf : mgr.free_blocks.count b
          = mgr.free_blocks.dropLast.count b + List.count b [blk] := by
        conv_lhs => rw [hfull]
        rw [List.count_append]
      have hmap : s1.block_table.map Prod.snd
          = (seqs.get ⟨i, hi⟩).block_table.map Prod.snd ++ [blk] := by
        rw [hbt]
        simp
      have hcnt : (s1.block_table.map Prod.snd).count b
          = ((seqs.get ⟨i, hi⟩).block_table.map Prod.snd).count b
            + List.count b [blk] := by
        rw [hmap, List.count_append]
      have hset := sum_map_set
        (fun s => (s.block_table.map Prod.snd).count b) seqs i hi s1
      omega

/-- One `append_tokens` call on sequence `i` preserves the count. -/
lemma inv_preserve_append_many (n : Nat) : ∀ (mgr : BlockManager)
    (seqs : List Sequence) (i : Nat) (hi : i < seqs.length)
    (s1 : Sequence) (m1 : BlockManager) (oe : Option SeqError),
    (seqs.get ⟨i, hi⟩).append_tokens mgr n = ((s1, m1), oe) →
    (∀ b, ownerCount ⟨mgr, seqs⟩ b = if b < mgr.num_blocks then 1 else 0) →
    ∀ b, ownerCount ⟨m1, seqs.set i s1⟩ b
      = if b < m1.num_blocks then 1 else 0 := by
  induction n with
  | zero =>
    intro mgr seqs i hi s1 m1 oe hstep hinv
    simp only [Sequence.append_tokens] at hstep
    have hs1 : s1 = seqs.get ⟨i, hi⟩ := (congrArg (fun q => q.1.1) hstep).symm
    have hm1 : m1 = mgr := (congrArg (fun q => q.1.2) hstep).symm
    subst hs1
    subst hm1
    rw [set_get_self seqs i hi]
    exact hinv
  | succ k ih =>
    intro mgr seqs i hi s1 m1 oe hstep hinv
    rcases hap : (seqs.get ⟨i, hi⟩).append_token mgr with ⟨⟨s2, m2⟩, oe2⟩
    cases oe2 with
    | some e =>
      rw [append_tokens_succ_err _ _ k _ e hap] at hstep
      have hs1 : s1 = s2 := (congrArg (fun q => q.1.1) hstep).symm
      have hm1 : m1 = m2 := (congrArg (fun q => q.1.2) hstep).symm
      subst hs1
      subst hm1
      exact inv_preserve_append mgr seqs i hi s1 m1 (some e) hap hinv
    | none =>
      rw [append_tokens_succ_ok _ _ k s2 m2 hap] at hstep
      have hinv2 := inv_preserve_append mgr seqs i hi s2 m2 none hap hinv
      have hlen : i < (seqs.set i s2).length := by simpa using hi
      have hget : (seqs.set i s2).get ⟨i, hlen⟩ = s2 := by simp
      have hstep2 : ((seqs.set i s2).get ⟨i, hlen⟩).append_tokens m2 k
          = ((s1, m1), oe) := by
        rw [hget]
        exact hstep
      have hfin := ih m2 (seqs.set i s2) i hlen s1 m1 oe hstep2 hinv2
      rw [List.set_set] at hfin
      exact hfin

/-- One `release_all` call on sequence `i` preserves the count: under the
invariant every owned id is in range, not free, and owned once, so the
release loop cannot fail and moves each id back to the free list. -/
lemma inv_preserve_release (mgr : BlockManager) (seqs : List Sequence) (i : Nat)
    (hi : i < seqs.length) (s1 : Sequence) (m1 : BlockManager)
    (oe : Option PoolError)
    (hstep : (seqs.get ⟨i, hi⟩).free_all_blocks mgr = ((s1, m1), oe))
    (hinv : ∀ b, ownerCount ⟨mgr, seqs⟩ b = if b < mgr.num_blocks then 1 else 0) :
    ∀ b, ownerCount ⟨m1, seqs.set i s1⟩ b
      = if b < m1.num_blocks then 1 else 0 := by
  have hcnt1 : ∀ v ∈ (seqs.get ⟨i, hi⟩).block_table.map Prod.snd,
      v < mgr.num_blocks ∧ v ∉ mgr.free_blocks := by
    intro v hv
    have hpos : 0 < ((seqs.get ⟨i, hi⟩).block_table.map Prod.snd).count v :=
      List.count_pos_iff.mpr hv
    have hle := get_le_sum_map
      (fun s => (s.block_table.map Prod.snd).count v) seqs i hi
    have hiv := hinv v
    simp only [ownerCount] at hiv
    by_cases hvn : v < mgr.num_blocks
    · rw [if_pos hvn] at hiv
      refine ⟨hvn, fun hmem => ?_⟩
      have : 0 < mgr.free_blocks.count v := List.count_pos_iff.mpr hmem
      omega
    · rw [if_neg hvn] at hiv
      exact absurd hiv (by omega)
  have hnd : ((seqs.get ⟨i, hi⟩).block_table.map Prod.snd).Nodup := by
    rw [List.nodup_iff_count_le_one]
    intro a
    by_cases ha : a ∈ (seqs.get ⟨i, hi⟩).block_table.map Prod.snd
    · have hle := get_le_sum_map
        (fun s => (s.block_table.map Prod.snd).count a) seqs i hi
      have hiv := hinv a
      simp only [ownerCount] at hiv
      by_cases han : a < mgr.num_blocks
      · rw [if_pos han] at hiv
        omega
      · rw [if_neg han] at hiv
        omega
    · rw [List.count_eq_zero_of_not_mem ha]
      omega
  have hloop := freeLoop_all_ok _ mgr (fun v hv => (hcnt1 v hv).1)
    (fun v hv => (hcnt1 v hv).2) hnd
  simp only [Sequence.free_all_blocks, hloop] at hstep
  have hs1 : s1 = { seqs.get ⟨i, hi⟩ with
      block_table := [], token_count := 0 } := by
    have := congrArg (fun q => q.1.1) hstep
    simpa using this.symm
  have hm1 : m1 = { mgr with free_blocks :=
      mgr.free_blocks ++ (seqs.get ⟨i, hi⟩).block_table.map Prod.snd } := by
    have := congrArg (fun q => q.1.2) hstep
    simpa using this.symm
  intro b
  have hnum : m1.num_blocks = mgr.num_blocks := by rw [hm1]
  have hfb : m1.free_blocks
      = mgr.free_blocks ++ (seqs.get ⟨i, hi⟩).block_table.map Prod.snd := by
    rw [hm1]
  have hbt1 : s1.block_table = [] := by rw [hs1]
  rw [hnum, ← hinv b]
  simp only [ownerCount]
  rw [hfb, List.count_append]
  have hset := sum_map_set
    (fun s => (s.block_table.map Prod.snd).count b) seqs i hi s1
  have hz : (s1.block_table.map Prod.snd).count b = 0 := by
    rw [hbt1]
    rfl
  omega

/-- Every reachable system state accounts for each in-range id exactly
once and never holds an out-of-range id. -/
lemma reachable_inv (σ : SysState) (h : Reachable σ) :
    ∀ b, ownerCount σ b = if b < σ.mgr.num_blocks then 1 else 0 := by
  induction h with
  | init n bs nl nh hs =>
    intro b
    simp only [ownerCount, BlockManager.init, List.map_nil, List.sum_nil,
      Nat.add_zero]
    exact count_range_eq n b
  | newSeq σ rid h ih =>
    intro b
    have := ih b
    simp only [ownerCount] at this ⊢
    simp only [List.map_append, List.sum_append, List.map_cons, List.map_nil,
      List.sum_cons, List.sum_nil, Sequence.init, List.count_nil]
    omega
  | appendTok σ i hi h ih =>
    rcases hstep : (σ.seqs.get ⟨i, hi⟩).append_token σ.mgr with ⟨⟨s1, m1⟩, oe⟩
    have hres := inv_preserve_append σ.mgr σ.seqs i hi s1 m1 oe hstep ih
    simpa [hstep] using hres
  | appendMany σ i hi n h ih =>
    rcases hstep : (σ.seqs.get ⟨i, hi⟩).append_tokens σ.mgr n with ⟨⟨s1, m1⟩, oe⟩
    have hres := inv_preserve_append_many n σ.mgr σ.seqs i hi s1 m1 oe hstep ih
    simpa [hstep] using hres
  | releaseAll σ i hi h ih =>
    rcases hstep : (σ.seqs.get ⟨i, hi⟩).free_all_blocks σ.mgr with ⟨⟨s1, m1⟩, oe⟩
    have hres := inv_preserve_release σ.mgr σ.seqs i hi s1 m1 oe hstep ih
    simpa [hstep] using hres

lemma two_get_le_sum_map (f : Sequence → Nat) :
    ∀ (l : List Sequence) (i j : Nat) (hi : i < l.length) (hj : j < l.length),
      i ≠ j → f (l.get ⟨i, hi⟩) + f (l.get ⟨j, hj⟩) ≤ (l.map f).sum := by
  intro l
  induction l with
  | nil =>
    intro i j hi
    simp at hi
  | cons x xs ih =>
    intro i j hi hj hne
    cases i with
    | zero =>
      cases j with
      | zero => exact absurd rfl hne
      | succ j1 =>
        simp only [List.get_cons_zero, List.get_cons_succ, List.map_cons,
          List.sum_cons]
        exact Nat.add_le_add_left
          (List.single_le_sum (fun y _ => Nat.zero_le y) _
            (List.mem_map_of_mem f (List.get_mem xs j1 (by simpa using hj))))
          (f x)
    | succ i1 =>
      cases j with
      | zero =>
        simp only [List.get_cons_zero, List.get_cons_succ, List.map_cons,
          List.sum_cons]
        rw [Nat.add_comm]
        exact Nat.add_le_add_left
          (List.single_le_sum (fun y _ => Nat.zero_le y) _
            (List.mem_map_of_mem f (List.get_mem xs i1 (by simpa using hi))))
          (f x)
      | succ j1 =>
        simp only [List.get_cons_succ, List.map_cons, List.sum_cons]
        exact Nat.le_trans
          (ih i1 j1 (by simpa using hi) (by simpa using hj) (by omega))
          (Nat.le_add_left _ _)

/-- C1: in every system state reachable from a freshly constructed pool
by any interleaving of sequence creation, `append_token`,
`append_tokens` and `release_all` (inside which the pool's allocate and
release occur), every id in `[0, total_blocks)` is owned exactly once —
by the free set or by exactly one sequence's mapping — no id outside
that range is ever held, and no two sequences' mappings reference the
same physical id. -/
theorem exclusive_ownership (σ : SysState) (h : Reachable σ) :
    (∀ b, b < σ.mgr.num_blocks → ownerCount σ b = 1) ∧
    (∀ b, σ.mgr.num_blocks ≤ b → ownerCount σ b = 0) ∧
    (∀ i j (hi : i < σ.seqs.length) (hj : j < σ.seqs.length), i ≠ j →
      ∀ b, b ∈ (σ.seqs.get ⟨i, hi⟩).block_table.map Prod.snd →
        b ∉ (σ.seqs.get ⟨j, hj⟩).block_table.map Prod.snd) := by
  have hinv := reachable_inv σ h
  refine ⟨fun b hb => by rw [hinv b, if_pos hb],
    fun b hb => by rw [hinv b, if_neg (by omega)], ?_⟩
  intro i j hi hj hne b hbi hbj
  have hci : 0 < ((σ.seqs.get ⟨i, hi⟩).block_table.map Prod.snd).count b :=
    List.count_pos_iff.mpr hbi
  have hcj : 0 < ((σ.seqs.get ⟨j, hj⟩).block_table.map Prod.snd).count b :=
    List.count_pos_iff.mpr hbj
  have hpair : ((σ.seqs.get ⟨i, hi⟩).block_table.map Prod.snd).count b
      + ((σ.seqs.get ⟨j, hj⟩).block_table.map Prod.snd).count b
      ≤ (σ.seqs.map (fun s => (s.block_table.map Prod.snd).count b)).sum :=
    two_get_le_sum_map
      (fun s => (s.block_table.map Prod.snd).count b) σ.seqs i j hi hj hne
  have h1 := hinv b
  simp only [ownerCount] at h1
  by_cases hb : b < σ.mgr.num_blocks
  · rw [if_pos hb] at h1
    omega
  · rw [if_neg hb] at h1
    omega

/-- Witness for C1: the state after creating one pool of two blocks, one
sequence, and appending one token is reachable and satisfies the
partition. -/
theorem exclusive_ownership_witness :
    (∀ b, b < (BlockManager.mk 2 4 1 1 1 [0]).num_blocks →
      ownerCount ⟨BlockManager.mk 2 4 1 1 1 [0],
        [Sequence.mk "r1" 1 [(0, 1)]]⟩ b = 1) ∧
    (∀ b, (BlockManager.mk 2 4 1 1 1 [0]).num_blocks ≤ b →
      ownerCount ⟨BlockManager.mk 2 4 1 1 1 [0],
        [Sequence.mk "r1" 1 [(0, 1)]]⟩ b = 0) ∧
    (∀ i j (hi : i < [Sequence.mk "r1" 1 [(0, 1)]].length)
        (hj : j < [Sequence.mk "r1" 1 [(0, 1)]].length), i ≠ j →
      ∀ b, b ∈ ([Sequence.mk "r1" 1 [(0, 1)]].get
          ⟨i, hi⟩).block_table.map Prod.snd →
        b ∉ ([Sequence.mk "r1" 1 [(0, 1)]].get
          ⟨j, hj⟩).block_table.map Prod.snd) := by
  have h2 : Reachable ⟨BlockManager.init 2 4 1 1 1, [Sequence.init "r1"]⟩ :=
    Reachable.newSeq ⟨BlockManager.init 2 4 1 1 1, []⟩ "r1"
      (Reachable.init 2 4 1 1 1)
  have h3 : Reachable ⟨BlockManager.mk 2 4 1 1 1 [0],
      [Sequence.mk "r1" 1 [(0, 1)]]⟩ :=
    Reachable.appendTok ⟨BlockManager.init 2 4 1 1 1, [Sequence.init "r1"]⟩
      0 (Nat.succ_pos 0) h2
  exact exclusive_ownership
    ⟨BlockManager.mk 2 4 1 1 1 [0], [Sequence.mk "r1" 1 [(0, 1)]]⟩ h3
